import Mathlib

/-!
# DiviPay — balance aggregation and debt simplification, verified

Shallow embedding of the algorithmic core of
`backend/src/controllers/expenseController.js`:

* `calculateBalances` — the balance-computation loop of `calculateGroupBalance`
  (lines 272–309): initialize a per-member balance object, add each expense's
  `amount` to the payer's `totalPaid`, each split's `amount` to that member's
  `totalOwes`, then set `netBalance = totalPaid - totalOwes`.
* `generateSimplifiedDebts` — the greedy two-cursor debt simplifier
  (lines 631–679), together with `generateSimplifiedDebtsPost`, which models
  the state of the caller's input records after the call (the JS function
  pushes creditor records by reference and mutates their `netBalance`;
  debtors are spread-copied).
* `addExpenseEqualSplit` — the equal-split branch of `addExpense`
  (lines 45–61): per-person share `Number((amount/n).toFixed(2))`, followed by
  the `Math.abs(totalSplitAmount - amount) > 0.01` rejection check.

Monetary values are embedded as exact rationals `ℚ`; `Number(x.toFixed(2))`
on the positive amounts occurring here is round-half-up to 2 decimals,
embedded as `round2`.  JS object iteration (`Object.values`) is embedded as a
list in insertion order; the balances object keyed by member id is an
insert-or-replace association list (`objSet`), so its keys are unique.
-/

/-- Tolerance `0.01` used throughout the controller. -/
def epsQ : ℚ := 1/100

/-- `Number(x.toFixed(2))` for the nonnegative amounts used by the code:
round to 2 decimal places, half away from zero (= half up for `x ≥ 0`). -/
def round2 (q : ℚ) : ℚ := (⌊q * 100 + 1/2⌋ : ℤ) / 100

/-- One entry of `expense.splitBetween`: `{ user, amount }`. -/
structure Split where
  user : String
  amount : ℚ
deriving DecidableEq

/-- An expense record as consumed by the balance computation.  Fields of the
Mongoose model that the algorithm never reads (description, category, notes,
timestamps) are omitted. -/
structure ExpenseRec where
  paidBy : String
  amount : ℚ
  splitBetween : List Split
  settled : Bool
deriving DecidableEq

/-- A group member as read from `group.members` (`member.user`). -/
structure Member where
  userId : String
  name : String
  email : String
deriving DecidableEq

/-- A value of the `balances` object built by `calculateGroupBalance`. -/
structure MemberBalance where
  userId : String
  name : String
  email : String
  totalPaid : ℚ
  totalOwes : ℚ
  netBalance : ℚ
deriving DecidableEq

/-- A simplified debt `{ from: {userId, name}, to: {userId, name}, amount }`,
flattened. -/
structure Debt where
  fromId : String
  fromName : String
  toId : String
  toName : String
  amount : ℚ
deriving DecidableEq

/-- Working entry of the simplifier's `creditors` / `debtors` arrays.
`idx` is the position of the underlying record in the input list: the JS
code pushes the *same object* into `creditors`, so mutations of a creditor's
`netBalance` are visible through the input; `idx` lets the embedding say
which input record is aliased.  `nb` is the working `netBalance`. -/
structure WEntry where
  idx : Nat
  userId : String
  name : String
  nb : ℚ
deriving DecidableEq

/-- `balances[memberId] = { …zeros }` for one member. -/
def initBalance (m : Member) : MemberBalance :=
  ⟨m.userId, m.name, m.email, 0, 0, 0⟩

/-- JS object assignment `obj[b.userId] = b`: replace in place if the key is
present, else append. -/
def objSet (bs : List MemberBalance) (b : MemberBalance) : List MemberBalance :=
  if bs.any (fun x => x.userId == b.userId) then
    bs.map (fun x => if x.userId == b.userId then b else x)
  else
    bs ++ [b]

/-- `group.members.forEach(member => { balances[memberId] = {…} })`. -/
def initBalances (members : List Member) : List MemberBalance :=
  members.foldl (fun bs m => objSet bs (initBalance m)) []

/-- `if (balances[paidById]) balances[paidById].totalPaid += expense.amount`. -/
def addPaid (bs : List MemberBalance) (payer : String) (amt : ℚ) : List MemberBalance :=
  bs.map (fun b => if b.userId = payer then { b with totalPaid := b.totalPaid + amt } else b)

/-- `if (balances[splitUserId]) balances[splitUserId].totalOwes += split.amount`. -/
def addOwes (bs : List MemberBalance) (s : Split) : List MemberBalance :=
  bs.map (fun b => if b.userId = s.user then { b with totalOwes := b.totalOwes + s.amount } else b)

/-- Body of `expenses.forEach(expense => …)`. -/
def applyExpense (bs : List MemberBalance) (e : ExpenseRec) : List MemberBalance :=
  e.splitBetween.foldl addOwes (addPaid bs e.paidBy e.amount)

/-- The balance computation of `calculateGroupBalance` (lines 272–309):
zero-initialize every member, fold all expenses, then set
`netBalance = totalPaid - totalOwes`.  Note: no rounding is applied and
unknown `paidBy` / `split.user` ids are silently skipped (the `if` guards). -/
def calculateBalances (members : List Member) (expenses : List ExpenseRec) : List MemberBalance :=
  ((expenses.foldl applyExpense (initBalances members)).map
    (fun b => { b with netBalance := b.totalPaid - b.totalOwes }))

/-- `Object.values(balances).forEach`: collect `netBalance > 0.01` entries
(creditors), remembering each record's position `i` in the input list. -/
def collectCreditorsAux (i : Nat) : List MemberBalance → List WEntry
  | [] => []
  | b :: bs =>
    if epsQ < b.netBalance then
      ⟨i, b.userId, b.name, b.netBalance⟩ :: collectCreditorsAux (i+1) bs
    else collectCreditorsAux (i+1) bs

/-- Collect `netBalance < -0.01` entries (debtors); the JS code spread-copies
these with `netBalance: Math.abs(balance.netBalance)`, so `nb` is the
magnitude and the input records are not aliased. -/
def collectDebtorsAux (i : Nat) : List MemberBalance → List WEntry
  | [] => []
  | b :: bs =>
    if b.netBalance < -epsQ then
      ⟨i, b.userId, b.name, |b.netBalance|⟩ :: collectDebtorsAux (i+1) bs
    else collectDebtorsAux (i+1) bs

/-- Stable insertion into a descending-sorted list: an element coming earlier
in the input is placed before later elements of equal `nb`.  Together with
`sortByNbDesc` this is extensionally the JS stable
`arr.sort((a, b) => b.netBalance - a.netBalance)`. -/
def insertByNb (x : WEntry) : List WEntry → List WEntry
  | [] => [x]
  | y :: ys => if y.nb ≤ x.nb then x :: y :: ys else y :: insertByNb x ys

/-- Stable sort, descending by `nb`. -/
def sortByNbDesc : List WEntry → List WEntry
  | [] => []
  | x :: xs => insertByNb x (sortByNbDesc xs)

/-- One creditor's trip through the while-loop: the cursor stays on creditor
`c` while `j` advances.  `amount = min(creditor.netBalance, debtor.netBalance)`
is subtracted from both sides; a debt is emitted when `amount > 0.01`;
`i` advances when the creditor's remainder drops below `0.01`, `j` when the
debtor's does.  Returns (emitted debts, final state of `c`, remaining
debtors).  In the branch where the creditor's remainder stays `≥ 0.01`, the
debtor's remainder is `d.nb - min c.nb d.nb = 0 < 0.01` (the min was `d.nb`),
so the JS loop advances `j` there — exactly the recursive call below. -/
def feed : WEntry → List WEntry → List Debt × WEntry × List WEntry
  | c, [] => ([], c, [])
  | c, d :: ds =>
    let a := min c.nb d.nb
    let nd : List Debt := if epsQ < a then [⟨d.userId, d.name, c.userId, c.name, round2 a⟩] else []
    if c.nb - a < epsQ then
      if d.nb - a < epsQ then (nd, { c with nb := c.nb - a }, ds)
      else (nd, { c with nb := c.nb - a }, { d with nb := d.nb - a } :: ds)
    else
      let r := feed { c with nb := c.nb - a } ds
      (nd ++ r.1, r.2.1, r.2.2)

/-- The two-cursor walk `while (i < creditors.length && j < debtors.length)`,
one creditor at a time.  Returns the emitted debts and the final states of
all creditor entries (in sorted order). -/
def walk : List WEntry → List WEntry → List Debt × List WEntry
  | [], _ => ([], [])
  | c :: cs, ds =>
    let r := feed c ds
    let w := walk cs r.2.2
    (r.1 ++ w.1, r.2.1 :: w.2)

/-- `generateSimplifiedDebts` (lines 631–679): partition into creditors and
debtors, sort both descending by amount (stable), run the greedy walk, and
return the emitted debts. -/
def generateSimplifiedDebts (balances : List MemberBalance) : List Debt :=
  (walk (sortByNbDesc (collectCreditorsAux 0 balances))
        (sortByNbDesc (collectDebtorsAux 0 balances))).1

/-- Write the final creditor states back into the input list at their
positions: record `i` gets `netBalance := e.nb` when some final creditor
entry `e` has `e.idx = i`, and is untouched otherwise. -/
def applyFinalsAux (fin : List WEntry) : Nat → List MemberBalance → List MemberBalance
  | _, [] => []
  | i, b :: bs =>
    (match fin.find? (fun e => e.idx == i) with
     | some e => { b with netBalance := e.nb }
     | none => b) :: applyFinalsAux fin (i+1) bs

/-- The state of the caller's `balances` records after
`generateSimplifiedDebts` returns: creditors were pushed by reference and
their `netBalance` mutated in place (`creditor.netBalance -= amount`), so
each creditor record ends at its final remainder; every other record is
untouched. -/
def generateSimplifiedDebtsPost (balances : List MemberBalance) : List MemberBalance :=
  applyFinalsAux
    ((walk (sortByNbDesc (collectCreditorsAux 0 balances))
           (sortByNbDesc (collectDebtorsAux 0 balances))).2)
    0 balances

/-- The equal-split branch of `addExpense` (lines 46–52):
`amountPerPerson = amount / group.members.length`, each share
`Number(amountPerPerson.toFixed(2))`. -/
def equalSplitBetween (amount : ℚ) (memberIds : List String) : List Split :=
  memberIds.map (fun u => ⟨u, round2 (amount / (memberIds.length : ℚ))⟩)

/-- `addExpense` without a caller-supplied `splitBetween` (lines 45–61):
build the rounded equal split, then apply the
`Math.abs(totalSplitAmount - amount) > 0.01` check to it. -/
def addExpenseEqualSplit (amount : ℚ) (memberIds : List String) : Except String (List Split) :=
  let finalSplitBetween := equalSplitBetween amount memberIds
  if 1/100 < |finalSplitBetween.foldl (fun s x => s + x.amount) 0 - amount| then
    Except.error "Split amounts do not add up to total amount"
  else
    Except.ok finalSplitBetween

/-- Specification-side measure: this member's share of one split list
(`Σ amount` over entries with `user = u`). -/
def shareOf (u : String) : List Split → ℚ
  | [] => 0
  | s :: ss => (if s.user = u then s.amount else 0) + shareOf u ss

/-- Specification-side measure: total this member paid
(`Σ amount` over expenses with `paidBy = u`). -/
def paidOf (u : String) : List ExpenseRec → ℚ
  | [] => 0
  | e :: es => (if e.paidBy = u then e.amount else 0) + paidOf u es

/-- Specification-side measure: total this member owes
(`Σ` of their shares over all expenses). -/
def owesOf (u : String) : List ExpenseRec → ℚ
  | [] => 0
  | e :: es => shareOf u e.splitBetween + owesOf u es

/-- The sum of one expense's split amounts. -/
def splitTotal (e : ExpenseRec) : ℚ := (e.splitBetween.map Split.amount).sum

/-- All fields of a `MemberBalance` except `netBalance`. -/
def stripNb (b : MemberBalance) : String × String × String × ℚ × ℚ :=
  (b.userId, b.name, b.email, b.totalPaid, b.totalOwes)

/-- Remove from an expense everything the aggregation loop skips when the
referenced id is unknown: zero the amount if the payer is not in `ids`,
drop split entries whose member is not in `ids`. -/
def scrubExpense (ids : List String) (e : ExpenseRec) : ExpenseRec :=
  { e with
    amount := if e.paidBy ∈ ids then e.amount else 0,
    splitBetween := e.splitBetween.filter (fun s => s.user ∈ ids) }

/-- Number of members whose net balance has magnitude above the tolerance. -/
def nonZeroCount (balances : List MemberBalance) : Nat :=
  (balances.filter (fun b => epsQ < b.netBalance ∨ b.netBalance < -epsQ)).length

-- Concrete inputs used by counterexamples and witnesses.

/-- C1 counterexample input: one creditor (+50), one debtor (-50). -/
def c1bs : List MemberBalance :=
  [⟨"A", "Alice", "a", 0, 0, 50⟩, ⟨"B", "Bob", "b", 0, 0, -50⟩]

/-- C1 witness input (same shape, its own copy). -/
def c1bsW : List MemberBalance :=
  [⟨"A", "Alice", "a", 0, 0, 50⟩, ⟨"B", "Bob", "b", 0, 0, -50⟩]

/-- C2 counterexample: the only group member. -/
def c2members : List Member := [⟨"A", "Alice", "a"⟩]

/-- C2 counterexample: an expense paid by non-member "B". -/
def c2expense : ExpenseRec := ⟨"B", 10, [⟨"A", 10⟩], false⟩

/-- C3 counterexample input: creditor total 50, debtor total 20. -/
def c3bs : List MemberBalance :=
  [⟨"A", "Alice", "a", 0, 0, 50⟩, ⟨"B", "Bob", "b", 0, 0, -20⟩]

/-- C3 witness input: a creditor and no debtor at all. -/
def c3bsW : List MemberBalance := [⟨"A", "Alice", "a", 0, 0, 50⟩]

/-- C4 witness: two members. -/
def c4members : List Member := [⟨"A", "Alice", "a"⟩, ⟨"B", "Bob", "b"⟩]

/-- C5 members. -/
def c5members : List Member := [⟨"A", "Alice", "a"⟩, ⟨"B", "Bob", "b"⟩]

/-- C5 counterexample: an expense whose splits sum to 99.99 against an
amount of 100.00 — exactly at the 0.01 ingestion tolerance. -/
def c5expense : ExpenseRec := ⟨"A", 100, [⟨"B", 9999/100⟩], false⟩

/-- C5 counterexample: two such expenses; discrepancies accumulate to 0.02. -/
def c5expenses : List ExpenseRec := [c5expense, c5expense]

/-- C6 counterexample: a member. -/
def c6members : List Member := [⟨"A", "Alice", "a"⟩]

/-- C6 counterexample: an expense with a 3-decimal amount 10.005. -/
def c6expense : ExpenseRec := ⟨"A", 2001/200, [⟨"A", 2001/200⟩], false⟩

/-- C7 witness input: four members with balances +50, +30, -40, -40. -/
def c7bs : List MemberBalance :=
  [⟨"A", "A", "a", 0, 0, 50⟩, ⟨"B", "B", "b", 0, 0, 30⟩,
   ⟨"C", "C", "c", 0, 0, -40⟩, ⟨"D", "D", "d", 0, 0, -40⟩]

/-- C8 scenario input: net balances A:+50, B:+30, C:-40, D:-40, in order. -/
def c8bs : List MemberBalance :=
  [⟨"A", "A", "a", 0, 0, 50⟩, ⟨"B", "B", "b", 0, 0, 30⟩,
   ⟨"C", "C", "c", 0, 0, -40⟩, ⟨"D", "D", "d", 0, 0, -40⟩]

/-- C9 witness input. -/
def c9bs : List MemberBalance :=
  [⟨"A", "A", "a", 0, 0, 50⟩, ⟨"B", "B", "b", 0, 0, -50⟩]

/-- C10: seven member ids. -/
def c10members : List String := ["u1", "u2", "u3", "u4", "u5", "u6", "u7"]

/-- C4 witness: a settlement-shaped expense (payer B, single split to A). -/
def c4extra : ExpenseRec := ⟨"A", 7, [⟨"B", 7⟩], false⟩

-- ## Aggregator: closed form

theorem foldl_addOwes (ss : List Split) : ∀ bs : List MemberBalance,
    ss.foldl addOwes bs
      = bs.map (fun b => { b with totalOwes := b.totalOwes + shareOf b.userId ss }) := by
  induction ss with
  | nil => intro bs; simp [shareOf]
  | cons s ss ih =>
    intro bs
    rw [List.foldl_cons, ih, addOwes, List.map_map]
    apply List.map_congr_left
    intro b _
    by_cases h : b.userId = s.user
    · simp [Function.comp, h, shareOf, add_assoc]
    · have h2 : ¬ (s.user = b.userId) := fun hh => h hh.symm
      simp [Function.comp, h, h2, shareOf]

theorem applyExpense_eq (bs : List MemberBalance) (e : ExpenseRec) :
    applyExpense bs e = bs.map (fun b =>
      { b with totalPaid := b.totalPaid + (if e.paidBy = b.userId then e.amount else 0),
               totalOwes := b.totalOwes + shareOf b.userId e.splitBetween }) := by
  rw [applyExpense, foldl_addOwes, addPaid, List.map_map]
  apply List.map_congr_left
  intro b _
  by_cases h : b.userId = e.paidBy
  · simp [Function.comp, h]
  · have h2 : ¬ (e.paidBy = b.userId) := fun hh => h hh.symm
    simp [Function.comp, h, h2]

theorem foldl_applyExpense (es : List ExpenseRec) : ∀ bs : List MemberBalance,
    es.foldl applyExpense bs = bs.map (fun b =>
      { b with totalPaid := b.totalPaid + paidOf b.userId es,
               totalOwes := b.totalOwes + owesOf b.userId es }) := by
  induction es with
  | nil => intro bs; simp [paidOf, owesOf]
  | cons e es ih =>
    intro bs
    rw [List.foldl_cons, ih, applyExpense_eq, List.map_map]
    apply List.map_congr_left
    intro b _
    simp [Function.comp, paidOf, owesOf, add_assoc]

theorem objSet_mem (bs : List MemberBalance) (b x : MemberBalance) (hx : x ∈ objSet bs b) :
    x ∈ bs ∨ x = b := by
  rw [objSet] at hx
  split at hx
  · rcases List.mem_map.mp hx with ⟨y, hy, hyx⟩
    by_cases hc : (y.userId == b.userId) = true
    · right; rw [if_pos hc] at hyx; exact hyx.symm
    · left; rw [if_neg hc] at hyx; exact hyx ▸ hy
  · rcases List.mem_append.mp hx with h | h
    · exact Or.inl h
    · exact Or.inr (List.mem_singleton.mp h)

theorem initBalances_zero (members : List Member) :
    ∀ b ∈ initBalances members, b.totalPaid = 0 ∧ b.totalOwes = 0 := by
  rw [initBalances]
  have main : ∀ (ms : List Member) (acc : List MemberBalance),
      (∀ b ∈ acc, b.totalPaid = 0 ∧ b.totalOwes = 0) →
      ∀ b ∈ ms.foldl (fun bs m => objSet bs (initBalance m)) acc,
        b.totalPaid = 0 ∧ b.totalOwes = 0 := by
    intro ms
    induction ms with
    | nil => intro acc h; simpa using h
    | cons m ms ih =>
      intro acc h
      rw [List.foldl_cons]
      apply ih
      intro b hb
      rcases objSet_mem _ _ _ hb with h1 | h1
      · exact h _ h1
      · subst h1; exact ⟨rfl, rfl⟩
  exact main members [] (by simp)

theorem calculateBalances_eq (members : List Member) (es : List ExpenseRec) :
    calculateBalances members es = (initBalances members).map (fun b =>
      ⟨b.userId, b.name, b.email, paidOf b.userId es, owesOf b.userId es,
       paidOf b.userId es - owesOf b.userId es⟩) := by
  rw [calculateBalances, foldl_applyExpense, List.map_map]
  apply List.map_congr_left
  intro b hb
  obtain ⟨h1, h2⟩ := initBalances_zero members b hb
  simp [Function.comp, h1, h2]

theorem calculateBalances_totals (members : List Member) (es : List ExpenseRec) :
    ∀ b ∈ calculateBalances members es,
      b.totalPaid = paidOf b.userId es ∧ b.totalOwes = owesOf b.userId es ∧
      b.netBalance = b.totalPaid - b.totalOwes := by
  intro b hb
  rw [calculateBalances_eq] at hb
  rcases List.mem_map.mp hb with ⟨b0, _, rfl⟩
  exact ⟨rfl, rfl, rfl⟩

-- ## Aggregator: keys of the balances object

theorem objSet_keys_replace (bs : List MemberBalance) (b : MemberBalance)
    (h : bs.any (fun x => x.userId == b.userId) = true) :
    (objSet bs b).map MemberBalance.userId = bs.map MemberBalance.userId := by
  rw [objSet, if_pos h, List.map_map]
  apply List.map_congr_left
  intro x _
  by_cases hc : (x.userId == b.userId) = true
  · simp only [Function.comp, if_pos hc]
    exact (beq_iff_eq.mp hc).symm
  · simp only [Function.comp, if_neg hc]

theorem objSet_keys_append (bs : List MemberBalance) (b : MemberBalance)
    (h : ¬ bs.any (fun x => x.userId == b.userId) = true) :
    (objSet bs b).map MemberBalance.userId = bs.map MemberBalance.userId ++ [b.userId] := by
  rw [objSet, if_neg h, List.map_append]
  rfl

theorem objSet_keys_mem (bs : List MemberBalance) (b : MemberBalance) (u : String) :
    u ∈ (objSet bs b).map MemberBalance.userId ↔
      u ∈ bs.map MemberBalance.userId ∨ u = b.userId := by
  by_cases h : bs.any (fun x => x.userId == b.userId) = true
  · rw [objSet_keys_replace bs b h]
    constructor
    · exact Or.inl
    · rintro (hm | rfl)
      · exact hm
      · rcases List.any_eq_true.mp h with ⟨y, hy, hyb⟩
        have : y.userId = b.userId := beq_iff_eq.mp hyb
        exact this ▸ List.mem_map_of_mem MemberBalance.userId hy
  · rw [objSet_keys_append bs b h]
    simp [List.mem_append]

theorem objSet_keys_nodup (bs : List MemberBalance) (b : MemberBalance)
    (h : (bs.map MemberBalance.userId).Nodup) :
    ((objSet bs b).map MemberBalance.userId).Nodup := by
  by_cases hc : bs.any (fun x => x.userId == b.userId) = true
  · rw [objSet_keys_replace bs b hc]; exact h
  · rw [objSet_keys_append bs b hc]
    have hb : b.userId ∉ bs.map MemberBalance.userId := by
      intro hmem
      apply hc
      rcases List.mem_map.mp hmem with ⟨y, hy, hyx⟩
      exact List.any_eq_true.mpr ⟨y, hy, beq_iff_eq.mpr hyx⟩
    simp [List.nodup_append, h, hb]

theorem initBalances_keys_nodup (members : List Member) :
    ((initBalances members).map MemberBalance.userId).Nodup := by
  rw [initBalances]
  have main : ∀ (ms : List Member) (acc : List MemberBalance),
      (acc.map MemberBalance.userId).Nodup →
      (((ms.foldl (fun bs m => objSet bs (initBalance m)) acc).map MemberBalance.userId)).Nodup := by
    intro ms
    induction ms with
    | nil => intro acc h; simpa using h
    | cons m ms ih =>
      intro acc h
      rw [List.foldl_cons]
      exact ih _ (objSet_keys_nodup _ _ h)
  exact main members [] (by simp)

theorem initBalances_keys_mem (members : List Member) (u : String) :
    u ∈ (initBalances members).map MemberBalance.userId ↔ u ∈ members.map Member.userId := by
  rw [initBalances]
  have main : ∀ (ms : List Member) (acc : List MemberBalance),
      (u ∈ (ms.foldl (fun bs m => objSet bs (initBalance m)) acc).map MemberBalance.userId ↔
        u ∈ acc.map MemberBalance.userId ∨ u ∈ ms.map Member.userId) := by
    intro ms
    induction ms with
    | nil => intro acc; simp
    | cons m ms ih =>
      intro acc
      rw [List.foldl_cons, ih, objSet_keys_mem]
      have : (initBalance m).userId = m.userId := rfl
      rw [this]
      simp [or_assoc, List.mem_cons]
  rw [main members []]
  simp

-- ## Aggregator: unknown references are silently dropped

theorem paidOf_scrub (ids : List String) (es : List ExpenseRec) (u : String) (hu : u ∈ ids) :
    paidOf u (es.map (scrubExpense ids)) = paidOf u es := by
  induction es with
  | nil => rfl
  | cons e es ih =>
    simp only [List.map_cons, paidOf, ih]
    by_cases h : e.paidBy = u
    · have : (scrubExpense ids e).paidBy = e.paidBy := rfl
      rw [this]
      simp only [if_pos h, scrubExpense]
      rw [if_pos (h ▸ hu)]
    · have : (scrubExpense ids e).paidBy = e.paidBy := rfl
      rw [this, if_neg h, if_neg h]

theorem shareOf_filter (ids : List String) (ss : List Split) (u : String) (hu : u ∈ ids) :
    shareOf u (ss.filter (fun s => s.user ∈ ids)) = shareOf u ss := by
  induction ss with
  | nil => rfl
  | cons s ss ih =>
    by_cases hmem : s.user ∈ ids
    · rw [List.filter_cons_of_pos (by simpa using hmem)]
      simp only [shareOf, ih]
    · rw [List.filter_cons_of_neg (by simpa using hmem)]
      have h : ¬ (s.user = u) := fun hh => hmem (hh ▸ hu)
      simp only [shareOf, ih, if_neg h, zero_add]

theorem owesOf_scrub (ids : List String) (es : List ExpenseRec) (u : String) (hu : u ∈ ids) :
    owesOf u (es.map (scrubExpense ids)) = owesOf u es := by
  induction es with
  | nil => rfl
  | cons e es ih =>
    simp only [List.map_cons, owesOf, ih]
    have : (scrubExpense ids e).splitBetween = e.splitBetween.filter (fun s => s.user ∈ ids) := rfl
    rw [this, shareOf_filter ids _ u hu]

-- ## Aggregator: sum lemmas

theorem sum_map_add {α : Type} (l : List α) (f g : α → ℚ) :
    (l.map (fun x => f x + g x)).sum = (l.map f).sum + (l.map g).sum := by
  induction l with
  | nil => simp
  | cons x xs ih => simp only [List.map_cons, List.sum_cons, ih]; ring

theorem sum_map_sub {α : Type} (l : List α) (f g : α → ℚ) :
    (l.map (fun x => f x - g x)).sum = (l.map f).sum - (l.map g).sum := by
  induction l with
  | nil => simp
  | cons x xs ih => simp only [List.map_cons, List.sum_cons, ih]; ring

theorem sum_if_point_zero (ks : List String) (a : String) (c : ℚ) (ha : a ∉ ks) :
    (ks.map (fun u => if a = u then c else 0)).sum = 0 := by
  induction ks with
  | nil => simp
  | cons k ks ih =>
    have h1 : ¬ (a = k) := fun hh => ha (hh ▸ List.mem_cons_self k ks)
    have h2 : a ∉ ks := fun hh => ha (List.mem_cons_of_mem k hh)
    simp only [List.map_cons, List.sum_cons, if_neg h1, ih h2, add_zero]

theorem sum_if_point (ks : List String) (a : String) (c : ℚ) (hnd : ks.Nodup) (ha : a ∈ ks) :
    (ks.map (fun u => if a = u then c else 0)).sum = c := by
  induction ks with
  | nil => simp at ha
  | cons k ks ih =>
    rcases List.mem_cons.mp ha with rfl | hmem
    · have hnot : a ∉ ks := (List.nodup_cons.mp hnd).1
      simp [sum_if_point_zero ks a c hnot]
    · have h1 : ¬ (a = k) := by
        rintro rfl
        exact (List.nodup_cons.mp hnd).1 hmem
      simp only [List.map_cons, List.sum_cons, if_neg h1,
        ih (List.nodup_cons.mp hnd).2 hmem, zero_add]

theorem sum_paidOf (ks : List String) (es : List ExpenseRec) (hnd : ks.Nodup)
    (h : ∀ e ∈ es, e.paidBy ∈ ks) :
    (ks.map (fun u => paidOf u es)).sum = (es.map ExpenseRec.amount).sum := by
  induction es with
  | nil => simp [paidOf]
  | cons e es ih =>
    have he : e.paidBy ∈ ks := h e (List.mem_cons_self e es)
    have hes : ∀ x ∈ es, x.paidBy ∈ ks := fun x hx => h x (List.mem_cons_of_mem e hx)
    have step : (ks.map (fun u => paidOf u (e :: es))).sum
        = (ks.map (fun u => if e.paidBy = u then e.amount else 0)).sum
          + (ks.map (fun u => paidOf u es)).sum := by
      rw [← sum_map_add]
      apply congrArg
      apply List.map_congr_left
      intro u _
      rfl
    rw [step, sum_if_point ks e.paidBy e.amount hnd he, ih hes]
    simp

theorem sum_shareOf (ks : List String) (ss : List Split) (hnd : ks.Nodup)
    (h : ∀ s ∈ ss, s.user ∈ ks) :
    (ks.map (fun u => shareOf u ss)).sum = (ss.map Split.amount).sum := by
  induction ss with
  | nil => simp [shareOf]
  | cons s ss ih =>
    have hs : s.user ∈ ks := h s (List.mem_cons_self s ss)
    have hss : ∀ x ∈ ss, x.user ∈ ks := fun x hx => h x (List.mem_cons_of_mem s hx)
    have step : (ks.map (fun u => shareOf u (s :: ss))).sum
        = (ks.map (fun u => if s.user = u then s.amount else 0)).sum
          + (ks.map (fun u => shareOf u ss)).sum := by
      rw [← sum_map_add]
      apply congrArg
      apply List.map_congr_left
      intro u _
      rfl
    rw [step, sum_if_point ks s.user s.amount hnd hs, ih hss]
    simp

theorem sum_owesOf (ks : List String) (es : List ExpenseRec) (hnd : ks.Nodup)
    (h : ∀ e ∈ es, ∀ s ∈ e.splitBetween, s.user ∈ ks) :
    (ks.map (fun u => owesOf u es)).sum = (es.map splitTotal).sum := by
  induction es with
  | nil => simp [owesOf]
  | cons e es ih =>
    have he : ∀ s ∈ e.splitBetween, s.user ∈ ks := h e (List.mem_cons_self e es)
    have hes : ∀ x ∈ es, ∀ s ∈ x.splitBetween, s.user ∈ ks :=
      fun x hx => h x (List.mem_cons_of_mem e hx)
    have step : (ks.map (fun u => owesOf u (e :: es))).sum
        = (ks.map (fun u => shareOf u e.splitBetween)).sum
          + (ks.map (fun u => owesOf u es)).sum := by
      rw [← sum_map_add]
      apply congrArg
      apply List.map_congr_left
      intro u _
      rfl
    rw [step, sum_shareOf ks _ hnd he, ih hes]
    simp [splitTotal]

theorem paidOf_append_one (u : String) (es : List ExpenseRec) (e : ExpenseRec) :
    paidOf u (es ++ [e]) = paidOf u es + (if e.paidBy = u then e.amount else 0) := by
  induction es with
  | nil => simp [paidOf]
  | cons x xs ih => simp only [List.cons_append, List.append_eq, paidOf, ih]; ring

theorem owesOf_append_one (u : String) (es : List ExpenseRec) (e : ExpenseRec) :
    owesOf u (es ++ [e]) = owesOf u es + shareOf u e.splitBetween := by
  induction es with
  | nil => simp [owesOf]
  | cons x xs ih => simp only [List.cons_append, List.append_eq, owesOf, ih]; ring

theorem sum_abs_le_len (es : List ExpenseRec) (f : ExpenseRec → ℚ)
    (h : ∀ e ∈ es, |f e| ≤ 1/100) :
    |(es.map f).sum| ≤ (es.length : ℚ) * (1/100) := by
  induction es with
  | nil => simp
  | cons e es ih =>
    have h1 : |f e| ≤ 1/100 := h e (List.mem_cons_self e es)
    have h2 : |(es.map f).sum| ≤ (es.length : ℚ) * (1/100) :=
      ih (fun x hx => h x (List.mem_cons_of_mem e hx))
    have h3 : |f e + (es.map f).sum| ≤ |f e| + |(es.map f).sum| := abs_add _ _
    simp only [List.map_cons, List.sum_cons, List.length_cons]
    push_cast
    linarith

-- ## Concrete evaluations shared by a claim's counterexample and witness

theorem eval_c6 : calculateBalances c6members [c6expense]
    = [⟨"A", "Alice", "a", 2001/200, 2001/200, 0⟩] := by
  simp [calculateBalances, initBalances, initBalance, objSet, applyExpense, addPaid, addOwes,
    c6members, c6expense]

theorem eval_c5 : calculateBalances c5members c5expenses
    = [⟨"A", "Alice", "a", 200, 0, 200⟩, ⟨"B", "Bob", "b", 0, 19998/100, -19998/100⟩] := by
  simp [calculateBalances, initBalances, initBalance, objSet, applyExpense, addPaid, addOwes,
    c5members, c5expenses, c5expense]
  norm_num

theorem eval_c4settle :
    calculateBalances c4members ([] ++ [(⟨"B", 30, [⟨"A", 30⟩], true⟩ : ExpenseRec)])
      = [⟨"A", "Alice", "a", 0, 30, -30⟩, ⟨"B", "Bob", "b", 30, 0, 30⟩] := by
  simp [calculateBalances, initBalances, initBalance, objSet, applyExpense, addPaid, addOwes,
    c4members]

theorem eval_c4empty : calculateBalances c4members []
    = [⟨"A", "Alice", "a", 0, 0, 0⟩, ⟨"B", "Bob", "b", 0, 0, 0⟩] := by
  simp [calculateBalances, initBalances, initBalance, objSet, c4members]

-- ## Claim C2

/-- C2 counterexample: with member set {A}, an expense whose payer "B" is not a
member is aggregated without any error: the call returns a normal result in
which the unknown payer's amount is silently ignored (nobody's `totalPaid`
receives the 10), refuting the claim that the aggregator fails with a
referential-integrity error. -/
theorem c2_counterexample :
    ("B" ∉ c2members.map Member.userId) ∧
    calculateBalances c2members [c2expense] = [⟨"A", "Alice", "a", 0, 10, -10⟩] := by
  constructor
  · decide
  · simp [calculateBalances, initBalances, initBalance, objSet, applyExpense, addPaid, addOwes,
      c2members, c2expense]

/-- C2 (amended): the aggregator never fails on an unknown `payerId` or split
`memberId`; it silently ignores them.  Formally, aggregating any expense list
gives the same result as aggregating the list with every unknown payer's
amount zeroed and every unknown-member split entry dropped. -/
theorem c2_unknown_refs_ignored (members : List Member) (es : List ExpenseRec) :
    calculateBalances members es
      = calculateBalances members (es.map (scrubExpense (members.map Member.userId))) := by
  rw [calculateBalances_eq, calculateBalances_eq]
  apply List.map_congr_left
  intro b hb
  have hu : b.userId ∈ members.map Member.userId := by
    have hmem : b.userId ∈ (initBalances members).map MemberBalance.userId :=
      List.mem_map_of_mem MemberBalance.userId hb
    exact (initBalances_keys_mem members _).mp hmem
  rw [paidOf_scrub _ _ _ hu, owesOf_scrub _ _ _ hu]

-- ## Claim C6

/-- C6 counterexample: an expense of amount 10.005 leaves `totalPaid = 10.005`
in the output — a value that is not rounded to 2 decimal places (its
round-half-up 2-dp value is 10.01) — refuting the claim that the aggregator
rounds the final `totalPaid`/`totalOwed`/`netBalance` values. -/
theorem c6_counterexample :
    calculateBalances c6members [c6expense]
      = [⟨"A", "Alice", "a", 2001/200, 2001/200, 0⟩] ∧
    round2 (2001/200) ≠ 2001/200 := by
  refine ⟨eval_c6, ?_⟩
  have h : (⌊(2001:ℚ)/200 * 100 + 1/2⌋ : ℤ) = 1001 := by norm_num [Int.floor_eq_iff]
  rw [round2, h]
  norm_num

/-- C6 (amended): the aggregator applies no rounding anywhere: each output
member's `totalPaid`, `totalOwes` and `netBalance` are the exact, unrounded
sums of the corresponding amounts (intermediate and final alike). -/
theorem c6_no_rounding (members : List Member) (es : List ExpenseRec) :
    ∀ b ∈ calculateBalances members es,
      b.totalPaid = paidOf b.userId es ∧ b.totalOwes = owesOf b.userId es ∧
      b.netBalance = b.totalPaid - b.totalOwes :=
  calculateBalances_totals members es

/-- C6 witness: the amended theorem applied at the concrete 10.005 expense. -/
theorem c6_no_rounding_witness :
    (⟨"A", "Alice", "a", 2001/200, 2001/200, 0⟩ : MemberBalance).totalPaid
      = paidOf "A" [c6expense] :=
  (c6_no_rounding c6members [c6expense] ⟨"A", "Alice", "a", 2001/200, 2001/200, 0⟩
    (by rw [eval_c6]; simp)).1

-- ## Claim C5

/-- C5 counterexample: two expenses, each within the 0.01 split-sum tolerance
(splits sum to 99.99 against amount 100.00), referencing only members — yet
the aggregated net balances sum to 0.02, outside the claimed 0.01 bound. -/
theorem c5_counterexample :
    (∀ e ∈ c5expenses, e.paidBy ∈ c5members.map Member.userId ∧
      (∀ s ∈ e.splitBetween, s.user ∈ c5members.map Member.userId) ∧
      |e.amount - splitTotal e| ≤ 1/100) ∧
    ¬ (|((calculateBalances c5members c5expenses).map MemberBalance.netBalance).sum| ≤ 1/100) := by
  constructor
  · intro e he
    have hx : e = c5expense := by
      rcases List.mem_cons.mp he with h | h
      · exact h
      · simpa [c5expenses] using h
    subst hx
    refine ⟨by decide, ?_, ?_⟩
    · intro s hs
      have hx : s = (⟨"B", 9999/100⟩ : Split) := by simpa [c5expense] using hs
      subst hx
      decide
    · have hst : splitTotal c5expense = 9999/100 := by
        simp [splitTotal, c5expense]
      rw [hst]
      have hnn : (0:ℚ) ≤ (100 : ℚ) - 9999/100 := by norm_num
      rw [show c5expense.amount = (100:ℚ) from rfl, abs_of_nonneg hnn]
      norm_num
  · rw [eval_c5]
    intro habs
    rw [abs_of_nonneg (by norm_num)] at habs
    norm_num at habs

/-- C5 (amended): under the claimed preconditions the sum of all output
`netBalance` values equals the sum of the per-expense discrepancies
`amount - splitTotal`; with each discrepancy within 0.01 this sum is bounded
by `0.01 × (number of expenses)` (not by 0.01 itself, which the
counterexample refutes), and it is exactly zero when every expense's splits
sum exactly to its amount. -/
theorem c5_zero_sum_per_expense (members : List Member) (es : List ExpenseRec)
    (h : ∀ e ∈ es, e.paidBy ∈ members.map Member.userId ∧
          ∀ s ∈ e.splitBetween, s.user ∈ members.map Member.userId) :
    ((calculateBalances members es).map MemberBalance.netBalance).sum
        = (es.map (fun e => e.amount - splitTotal e)).sum ∧
    ((∀ e ∈ es, |e.amount - splitTotal e| ≤ 1/100) →
      |((calculateBalances members es).map MemberBalance.netBalance).sum|
        ≤ (es.length : ℚ) * (1/100)) := by
  have hid : ((calculateBalances members es).map MemberBalance.netBalance).sum
      = (es.map (fun e => e.amount - splitTotal e)).sum := by
    rw [calculateBalances_eq, List.map_map]
    have step1 : (MemberBalance.netBalance ∘ fun (b : MemberBalance) =>
        (⟨b.userId, b.name, b.email, paidOf b.userId es, owesOf b.userId es,
          paidOf b.userId es - owesOf b.userId es⟩ : MemberBalance))
        = fun (b : MemberBalance) => paidOf b.userId es - owesOf b.userId es := rfl
    rw [step1]
    have step2 : (initBalances members).map (fun b => paidOf b.userId es - owesOf b.userId es)
        = ((initBalances members).map MemberBalance.userId).map
            (fun u => paidOf u es - owesOf u es) := by
      rw [List.map_map]; rfl
    rw [step2,
      sum_map_sub ((initBalances members).map MemberBalance.userId)
        (fun u => paidOf u es) (fun u => owesOf u es),
      sum_paidOf _ es (initBalances_keys_nodup members)
        (fun e he => (initBalances_keys_mem members e.paidBy).mpr (h e he).1),
      sum_owesOf _ es (initBalances_keys_nodup members)
        (fun e he s hs => (initBalances_keys_mem members s.user).mpr ((h e he).2 s hs)),
      ← sum_map_sub es ExpenseRec.amount splitTotal]
  refine ⟨hid, fun htol => ?_⟩
  rw [hid]
  exact sum_abs_le_len es _ htol

/-- C5 witness: the amended identity at the concrete two-expense input. -/
theorem c5_zero_sum_witness :
    ((calculateBalances c5members c5expenses).map MemberBalance.netBalance).sum
      = (c5expenses.map (fun e => e.amount - splitTotal e)).sum :=
  (c5_zero_sum_per_expense c5members c5expenses (by
    intro e he
    have hx : e = c5expense := by
      rcases List.mem_cons.mp he with h | h
      · exact h
      · simpa [c5expenses] using h
    subst hx
    refine ⟨by decide, ?_⟩
    intro s hs
    have hx : s = (⟨"B", 9999/100⟩ : Split) := by simpa [c5expense] using hs
    subst hx
    decide)).1

-- ## Claim C4

/-- C4: records flagged `settled = true` are aggregated exactly like
unsettled ones — the balance computation reads no `settled` flag — and a
settlement recorded as an expense (payer = debtor, one split for the
creditor, `settled = true`) is included: it moves the payer's net balance up
by the amount and the creditor's down by the amount, netting both toward
zero. -/
theorem c4_settled_included (members : List Member) (es : List ExpenseRec) (e : ExpenseRec)
    (p cr : String) (a : ℚ) :
    calculateBalances members (es ++ [{ e with settled := true }])
      = calculateBalances members (es ++ [{ e with settled := false }]) ∧
    ∀ b ∈ calculateBalances members (es ++ [(⟨p, a, [⟨cr, a⟩], true⟩ : ExpenseRec)]),
      ∀ b0 ∈ calculateBalances members es, b0.userId = b.userId →
        b.netBalance = b0.netBalance + (if p = b.userId then a else 0)
          - (if cr = b.userId then a else 0) := by
  constructor
  · rw [calculateBalances_eq, calculateBalances_eq]
    apply List.map_congr_left
    intro b _
    rw [paidOf_append_one, paidOf_append_one, owesOf_append_one, owesOf_append_one]
  · intro b hb b0 hb0 huid
    obtain ⟨hp, ho, hn⟩ := calculateBalances_totals _ _ b hb
    obtain ⟨hp0, ho0, hn0⟩ := calculateBalances_totals _ _ b0 hb0
    rw [hn, hp, ho, hn0, hp0, ho0, huid, paidOf_append_one, owesOf_append_one]
    simp only [shareOf, add_zero]
    ring

/-- C4 witness: a settlement of 30 from B to A on an empty history moves B's
net balance from 0 to +30 (and A's to -30), via the theorem. -/
theorem c4_settled_included_witness :
    (⟨"B", "Bob", "b", 30, 0, 30⟩ : MemberBalance).netBalance
      = (⟨"B", "Bob", "b", 0, 0, 0⟩ : MemberBalance).netBalance
        + (if "B" = (⟨"B", "Bob", "b", 30, 0, 30⟩ : MemberBalance).userId then (30:ℚ) else 0)
        - (if "A" = (⟨"B", "Bob", "b", 30, 0, 30⟩ : MemberBalance).userId then (30:ℚ) else 0) :=
  (c4_settled_included c4members [] c4extra "B" "A" 30).2
    ⟨"B", "Bob", "b", 30, 0, 30⟩ (by rw [eval_c4settle]; simp)
    ⟨"B", "Bob", "b", 0, 0, 0⟩ (by rw [eval_c4empty]; simp) rfl

-- ## Simplifier: feed and walk invariants

theorem feed_cf_idx (ds : List WEntry) : ∀ c : WEntry, ((feed c ds).2.1).idx = c.idx := by
  induction ds with
  | nil => intro c; rfl
  | cons d ds ih =>
    intro c
    simp only [feed]
    by_cases h1 : c.nb - min c.nb d.nb < epsQ
    · rw [if_pos h1]
      by_cases h2 : d.nb - min c.nb d.nb < epsQ
      · rw [if_pos h2]
      · rw [if_neg h2]
    · rw [if_neg h1]
      exact ih _

theorem feed_rest_ids (ds : List WEntry) : ∀ c : WEntry, ∀ x ∈ (feed c ds).2.2,
    x.userId ∈ ds.map WEntry.userId := by
  induction ds with
  | nil => intro c x hx; simp [feed] at hx
  | cons d ds ih =>
    intro c x hx
    simp only [feed] at hx
    simp only [List.map_cons]
    by_cases h1 : c.nb - min c.nb d.nb < epsQ
    · rw [if_pos h1] at hx
      by_cases h2 : d.nb - min c.nb d.nb < epsQ
      · rw [if_pos h2] at hx
        exact List.mem_cons_of_mem _ (List.mem_map_of_mem _ hx)
      · rw [if_neg h2] at hx
        rcases List.mem_cons.mp hx with rfl | hmem
        · exact List.mem_cons_self _ _
        · exact List.mem_cons_of_mem _ (List.mem_map_of_mem _ hmem)
    · rw [if_neg h1] at hx
      exact List.mem_cons_of_mem _ (ih _ x hx)

theorem feed_debts_ids (ds : List WEntry) : ∀ c : WEntry, ∀ t ∈ (feed c ds).1,
    t.toId = c.userId ∧ t.fromId ∈ ds.map WEntry.userId := by
  induction ds with
  | nil => intro c t ht; simp [feed] at ht
  | cons d ds ih =>
    intro c t ht
    simp only [feed] at ht
    simp only [List.map_cons]
    by_cases h1 : c.nb - min c.nb d.nb < epsQ
    · rw [if_pos h1] at ht
      have hnd : t ∈ (if epsQ < min c.nb d.nb then
          [(⟨d.userId, d.name, c.userId, c.name, round2 (min c.nb d.nb)⟩ : Debt)] else []) := by
        by_cases h2 : d.nb - min c.nb d.nb < epsQ
        · rw [if_pos h2] at ht; exact ht
        · rw [if_neg h2] at ht; exact ht
      by_cases h3 : epsQ < min c.nb d.nb
      · rw [if_pos h3] at hnd
        rcases List.mem_singleton.mp hnd with rfl
        exact ⟨rfl, List.mem_cons_self _ _⟩
      · rw [if_neg h3] at hnd
        simp at hnd
    · rw [if_neg h1] at ht
      rcases List.mem_append.mp ht with hnd | hrec
      · by_cases h3 : epsQ < min c.nb d.nb
        · rw [if_pos h3] at hnd
          rcases List.mem_singleton.mp hnd with rfl
          exact ⟨rfl, List.mem_cons_self _ _⟩
        · rw [if_neg h3] at hnd
          simp at hnd
      · obtain ⟨h4, h5⟩ := ih _ t hrec
        exact ⟨h4, List.mem_cons_of_mem _ h5⟩

theorem feed_count (ds : List WEntry) : ∀ c : WEntry,
    (feed c ds).1.length + (feed c ds).2.2.length
      ≤ ds.length + min ((feed c ds).2.2.length) 1 := by
  induction ds with
  | nil => intro c; simp [feed]
  | cons d ds ih =>
    intro c
    have hnd : (if epsQ < min c.nb d.nb then
        [(⟨d.userId, d.name, c.userId, c.name, round2 (min c.nb d.nb)⟩ : Debt)] else []).length
        ≤ 1 := by
      by_cases h3 : epsQ < min c.nb d.nb
      · rw [if_pos h3]; simp
      · rw [if_neg h3]; simp
    simp only [feed]
    by_cases h1 : c.nb - min c.nb d.nb < epsQ
    · rw [if_pos h1]
      by_cases h2 : d.nb - min c.nb d.nb < epsQ
      · rw [if_pos h2]
        simp only [List.length_cons]
        omega
      · rw [if_neg h2]
        simp only [List.length_cons]
        omega
    · rw [if_neg h1]
      have := ih { c with nb := c.nb - min c.nb d.nb }
      simp only [List.length_append, List.length_cons]
      omega

theorem walk_nil_right (C : List WEntry) : walk C [] = ([], C) := by
  induction C with
  | nil => rfl
  | cons c cs ih => simp [walk, feed, ih]

theorem walk_fin_idx (C : List WEntry) : ∀ D : List WEntry,
    ((walk C D).2).map WEntry.idx = C.map WEntry.idx := by
  induction C with
  | nil => intro D; rfl
  | cons c cs ih =>
    intro D
    simp only [walk, List.map_cons]
    rw [feed_cf_idx, ih]

theorem walk_debts_ids (C : List WEntry) : ∀ D : List WEntry, ∀ t ∈ (walk C D).1,
    t.toId ∈ C.map WEntry.userId ∧ t.fromId ∈ D.map WEntry.userId := by
  induction C with
  | nil => intro D t ht; simp [walk] at ht
  | cons c cs ih =>
    intro D t ht
    simp only [walk] at ht
    simp only [List.map_cons]
    rcases List.mem_append.mp ht with h | h
    · obtain ⟨h1, h2⟩ := feed_debts_ids D c t h
      exact ⟨h1 ▸ List.mem_cons_self _ _, h2⟩
    · obtain ⟨h1, h2⟩ := ih _ t h
      refine ⟨List.mem_cons_of_mem _ h1, ?_⟩
      rcases List.mem_map.mp h2 with ⟨y, hy, hyId⟩
      exact hyId ▸ feed_rest_ids D c y hy

theorem walk_debts_bound (C : List WEntry) : ∀ D : List WEntry, C ≠ [] → D ≠ [] →
    (walk C D).1.length + 1 ≤ C.length + D.length := by
  induction C with
  | nil => intro D h; exact absurd rfl h
  | cons c cs ih =>
    intro D _ hD
    have hf := feed_count D c
    simp only [walk, List.length_append, List.length_cons]
    by_cases hcs : cs = []
    · subst hcs
      simp only [walk, List.length_nil]
      omega
    · by_cases hrest : (feed c D).2.2 = []
      · rw [hrest, walk_nil_right]
        rw [hrest] at hf
        simp only [List.length_nil] at hf ⊢
        omega
      · have hr : 1 ≤ (feed c D).2.2.length := List.length_pos.mpr hrest
        have hih := ih ((feed c D).2.2) hcs hrest
        omega

-- ## Simplifier: sort and partition lemmas

theorem insert_length (x : WEntry) (l : List WEntry) :
    (insertByNb x l).length = l.length + 1 := by
  induction l with
  | nil => rfl
  | cons y ys ih =>
    simp only [insertByNb]
    split
    · simp
    · simp [ih]

theorem sort_length (l : List WEntry) : (sortByNbDesc l).length = l.length := by
  induction l with
  | nil => rfl
  | cons x xs ih => simp [sortByNbDesc, insert_length, ih]

theorem insert_mem (x : WEntry) (l : List WEntry) (y : WEntry) :
    y ∈ insertByNb x l ↔ y = x ∨ y ∈ l := by
  induction l with
  | nil => simp [insertByNb]
  | cons z zs ih =>
    simp only [insertByNb]
    split
    · simp [List.mem_cons]
    · simp only [List.mem_cons, ih]
      tauto

theorem sort_mem (l : List WEntry) (y : WEntry) : y ∈ sortByNbDesc l ↔ y ∈ l := by
  induction l with
  | nil => simp [sortByNbDesc]
  | cons x xs ih => simp [sortByNbDesc, insert_mem, ih]

theorem sort_map_mem (l : List WEntry) (u : String) :
    u ∈ (sortByNbDesc l).map WEntry.userId ↔ u ∈ l.map WEntry.userId := by
  simp [List.mem_map, sort_mem]

theorem nonZero_cons (b : MemberBalance) (bs : List MemberBalance) :
    nonZeroCount (b :: bs)
      = (if epsQ < b.netBalance ∨ b.netBalance < -epsQ then 1 else 0) + nonZeroCount bs := by
  simp only [nonZeroCount, List.filter_cons]
  by_cases h : epsQ < b.netBalance ∨ b.netBalance < -epsQ
  · simp [h]
    omega
  · simp [h]

theorem collect_counts (bs : List MemberBalance) : ∀ i : Nat,
    (collectCreditorsAux i bs).length + (collectDebtorsAux i bs).length = nonZeroCount bs := by
  induction bs with
  | nil => intro i; rfl
  | cons b bs ih =>
    intro i
    rw [nonZero_cons]
    have ihh := ih (i+1)
    by_cases hc : epsQ < b.netBalance
    · have h0 : (0:ℚ) < epsQ := by norm_num [epsQ]
      have hd : ¬ (b.netBalance < -epsQ) := by intro h; linarith
      simp only [collectCreditorsAux, collectDebtorsAux, if_pos hc, if_neg hd,
        List.length_cons, if_pos (Or.inl hc)]
      omega
    · by_cases hd : b.netBalance < -epsQ
      · simp only [collectCreditorsAux, collectDebtorsAux, if_neg hc, if_pos hd,
          List.length_cons, if_pos (Or.inr hd)]
        omega
      · have hor : ¬ (epsQ < b.netBalance ∨ b.netBalance < -epsQ) := by tauto
        simp only [collectCreditorsAux, collectDebtorsAux, if_neg hc, if_neg hd, if_neg hor]
        omega

theorem collectDebtors_nil (bs : List MemberBalance)
    (h : ∀ b ∈ bs, ¬ (b.netBalance < -epsQ)) : ∀ i : Nat, collectDebtorsAux i bs = [] := by
  induction bs with
  | nil => intro i; rfl
  | cons b bs ih =>
    intro i
    have hb := h b (List.mem_cons_self b bs)
    simp only [collectDebtorsAux, if_neg hb]
    exact ih (fun x hx => h x (List.mem_cons_of_mem b hx)) (i+1)

-- ## Claim C3

/-- C3 counterexample: on balances A:+50, B:-20 the creditor and debtor totals
differ (50 versus 20), yet the simplifier raises nothing: it returns the plain
partial debt list `[B→A 20]`, refuting the claim that it raises a
data-integrity error distinct from an ordinary result. -/
theorem c3_counterexample :
    ((collectCreditorsAux 0 c3bs).map WEntry.nb).sum
      ≠ ((collectDebtorsAux 0 c3bs).map WEntry.nb).sum ∧
    generateSimplifiedDebts c3bs = [⟨"B", "Bob", "A", "Alice", 20⟩] := by
  constructor
  · norm_num [collectCreditorsAux, collectDebtorsAux, c3bs, epsQ]
  · norm_num [generateSimplifiedDebts, collectCreditorsAux, collectDebtorsAux, sortByNbDesc,
      insertByNb, walk, feed, epsQ, round2, min_def, c3bs, Int.floor_eq_iff]

/-- C3 (amended): the simplifier has no error path.  When the zero-sum
invariant is broken it silently returns the partial list accumulated before a
side exhausted; in particular, whenever there is no debtor at all (however
large the creditor total), it returns `[]` — the very value of the routine
"no debts" success case. -/
theorem c3_no_error_on_imbalance (bs : List MemberBalance)
    (h : ∀ b ∈ bs, ¬ (b.netBalance < -epsQ)) :
    generateSimplifiedDebts bs = [] := by
  simp only [generateSimplifiedDebts, collectDebtors_nil bs h 0, sortByNbDesc]
  rw [walk_nil_right]

/-- C3 witness: a lone +50 creditor (zero-sum clearly broken) yields `[]`. -/
theorem c3_no_error_witness : generateSimplifiedDebts c3bsW = [] :=
  c3_no_error_on_imbalance c3bsW (by
    intro b hb
    have hx : b = (⟨"A", "Alice", "a", 0, 0, 50⟩ : MemberBalance) := by
      simpa [c3bsW] using hb
    subst hx
    norm_num [epsQ])

-- ## Claim C7

/-- C7: the simplifier emits at most `(number of members with |netBalance| >
0.01) - 1` debts whenever at least one such member exists. -/
theorem c7_debt_count_bound (bs : List MemberBalance) (h : 1 ≤ nonZeroCount bs) :
    (generateSimplifiedDebts bs).length ≤ nonZeroCount bs - 1 := by
  have hcount := collect_counts bs 0
  simp only [generateSimplifiedDebts]
  by_cases hCn : sortByNbDesc (collectCreditorsAux 0 bs) = []
  · rw [hCn]
    simp [walk]
  · by_cases hDn : sortByNbDesc (collectDebtorsAux 0 bs) = []
    · rw [hDn, walk_nil_right]
      simp
    · have hb := walk_debts_bound _ (sortByNbDesc (collectDebtorsAux 0 bs)) hCn hDn
      have hl1 := sort_length (collectCreditorsAux 0 bs)
      have hl2 := sort_length (collectDebtorsAux 0 bs)
      omega

/-- C7 witness: four members (+50, +30, -40, -40) produce at most 3 debts. -/
theorem c7_debt_count_witness :
    (generateSimplifiedDebts c7bs).length ≤ nonZeroCount c7bs - 1 :=
  c7_debt_count_bound c7bs (by norm_num [nonZeroCount, c7bs, epsQ, List.filter])

-- ## Claim C8

/-- C8: on balances A:+50, B:+30, C:-40, D:-40 (in that order) the simplifier
returns exactly `[C→A 40, D→A 10, D→B 30]`: creditors sorted descending
A, B; debtors C, D with the stable tie preserving C before D; the greedy walk
matches C against A for 40, D against A for 10, then D against B for 30. -/
theorem c8_scenario :
    generateSimplifiedDebts c8bs
      = [⟨"C", "C", "A", "A", 40⟩, ⟨"D", "D", "A", "A", 10⟩, ⟨"D", "D", "B", "B", 30⟩] := by
  norm_num [generateSimplifiedDebts, collectCreditorsAux, collectDebtorsAux, sortByNbDesc,
    insertByNb, walk, feed, epsQ, round2, min_def, c8bs]

-- ## Claim C9

theorem collect_cred_ids (bs : List MemberBalance) : ∀ (i : Nat) (u : String),
    u ∈ (collectCreditorsAux i bs).map WEntry.userId →
    ∃ b ∈ bs, b.userId = u ∧ epsQ < b.netBalance := by
  induction bs with
  | nil => intro i u h; simp [collectCreditorsAux] at h
  | cons b bs ih =>
    intro i u h
    by_cases hc : epsQ < b.netBalance
    · simp only [collectCreditorsAux, if_pos hc, List.map_cons] at h
      rcases List.mem_cons.mp h with rfl | hmem
      · exact ⟨b, List.mem_cons_self b bs, rfl, hc⟩
      · obtain ⟨y, hy, h1, h2⟩ := ih (i+1) u hmem
        exact ⟨y, List.mem_cons_of_mem b hy, h1, h2⟩
    · simp only [collectCreditorsAux, if_neg hc] at h
      obtain ⟨y, hy, h1, h2⟩ := ih (i+1) u h
      exact ⟨y, List.mem_cons_of_mem b hy, h1, h2⟩

theorem collect_deb_ids (bs : List MemberBalance) : ∀ (i : Nat) (u : String),
    u ∈ (collectDebtorsAux i bs).map WEntry.userId →
    ∃ b ∈ bs, b.userId = u ∧ b.netBalance < -epsQ := by
  induction bs with
  | nil => intro i u h; simp [collectDebtorsAux] at h
  | cons b bs ih =>
    intro i u h
    by_cases hd : b.netBalance < -epsQ
    · simp only [collectDebtorsAux, if_pos hd, List.map_cons] at h
      rcases List.mem_cons.mp h with rfl | hmem
      · exact ⟨b, List.mem_cons_self b bs, rfl, hd⟩
      · obtain ⟨y, hy, h1, h2⟩ := ih (i+1) u hmem
        exact ⟨y, List.mem_cons_of_mem b hy, h1, h2⟩
    · simp only [collectDebtorsAux, if_neg hd] at h
      obtain ⟨y, hy, h1, h2⟩ := ih (i+1) u h
      exact ⟨y, List.mem_cons_of_mem b hy, h1, h2⟩

/-- C9: on any balance list whose member ids are pairwise distinct (the
data model's uniqueness invariant for a scope), no emitted debt has
`fromMemberId = toMemberId`: every debt's recipient is a creditor
(netBalance > 0.01) and its payer a debtor (netBalance < -0.01), and one
record cannot be both. -/
theorem c9_no_self_debt (bs : List MemberBalance)
    (hnd : (bs.map MemberBalance.userId).Nodup) :
    ∀ d ∈ generateSimplifiedDebts bs, d.fromId ≠ d.toId := by
  intro d hd heq
  simp only [generateSimplifiedDebts] at hd
  obtain ⟨hto, hfrom⟩ := walk_debts_ids _ _ d hd
  rw [sort_map_mem] at hto hfrom
  obtain ⟨b1, hb1, hid1, hnb1⟩ := collect_cred_ids bs 0 d.toId hto
  obtain ⟨b2, hb2, hid2, hnb2⟩ := collect_deb_ids bs 0 d.fromId hfrom
  have hb12 : b1 = b2 := List.inj_on_of_nodup_map hnd hb1 hb2 (by rw [hid1, hid2, heq])
  have h0 : (0:ℚ) < epsQ := by norm_num [epsQ]
  rw [hb12] at hnb1
  linarith

/-- C9 witness: the theorem at balances A:+50, B:-50 and the single debt
B→A 50 it produces. -/
theorem c9_no_self_debt_witness :
    (⟨"B", "B", "A", "A", 50⟩ : Debt).fromId ≠ (⟨"B", "B", "A", "A", 50⟩ : Debt).toId :=
  c9_no_self_debt c9bs (by decide) ⟨"B", "B", "A", "A", 50⟩ (by
    rw [show generateSimplifiedDebts c9bs = [⟨"B", "B", "A", "A", 50⟩] from by
      norm_num [generateSimplifiedDebts, collectCreditorsAux, collectDebtorsAux, sortByNbDesc,
        insertByNb, walk, feed, epsQ, round2, min_def, c9bs]]
    simp)

-- ## Claim C1

theorem applyFinals_strip (fin : List WEntry) : ∀ (bs : List MemberBalance) (i : Nat),
    (applyFinalsAux fin i bs).map stripNb = bs.map stripNb := by
  intro bs
  induction bs with
  | nil => intro i; rfl
  | cons b bs ih =>
    intro i
    simp only [applyFinalsAux, List.map_cons]
    rw [ih]
    congr 1
    cases hf : fin.find? (fun e => e.idx == i) with
    | none => rfl
    | some e => rfl

theorem applyFinals_untouched (fin : List WEntry) :
    ∀ (bs : List MemberBalance) (i : Nat),
      (∀ e ∈ fin, ∀ j, e.idx = i + j →
        ∀ hj : j < bs.length, epsQ < (bs.get ⟨j, hj⟩).netBalance) →
      ∀ p ∈ (applyFinalsAux fin i bs).zip bs, ¬ (epsQ < p.2.netBalance) → p.1 = p.2 := by
  intro bs
  induction bs with
  | nil => intro i h p hp; simp [applyFinalsAux] at hp
  | cons b bs ih =>
    intro i h p hp hnb
    simp only [applyFinalsAux, List.zip_cons_cons] at hp
    rcases List.mem_cons.mp hp with rfl | hmem
    · cases hf : fin.find? (fun e => e.idx == i) with
      | none => simp only [hf]
      | some e =>
        exfalso
        have hmemf : e ∈ fin := List.mem_of_find?_eq_some hf
        have hidx : e.idx = i := by
          have hp2 := List.find?_some hf
          simpa using hp2
        have hbig := h e hmemf 0 (by omega) (by simp)
        exact hnb (by simpa using hbig)
    · apply ih (i+1) ?_ p hmem hnb
      intro e he j hj hjlt
      have hbig := h e he (j+1) (by omega) (by simpa using Nat.succ_lt_succ hjlt)
      simpa using hbig

theorem collect_cred_idx (bs : List MemberBalance) : ∀ (i : Nat) (k : Nat),
    k ∈ (collectCreditorsAux i bs).map WEntry.idx →
    ∃ j, ∃ hj : j < bs.length, k = i + j ∧ epsQ < (bs.get ⟨j, hj⟩).netBalance := by
  induction bs with
  | nil => intro i k h; simp [collectCreditorsAux] at h
  | cons b bs ih =>
    intro i k h
    by_cases hc : epsQ < b.netBalance
    · simp only [collectCreditorsAux, if_pos hc, List.map_cons] at h
      rcases List.mem_cons.mp h with rfl | hmem
      · exact ⟨0, by simp, by omega, by simpa using hc⟩
      · obtain ⟨j, hj, hk, hnb⟩ := ih (i+1) k hmem
        exact ⟨j+1, by simpa using Nat.succ_lt_succ hj, by omega, by simpa using hnb⟩
    · simp only [collectCreditorsAux, if_neg hc] at h
      obtain ⟨j, hj, hk, hnb⟩ := ih (i+1) k h
      exact ⟨j+1, by simpa using Nat.succ_lt_succ hj, by omega, by simpa using hnb⟩

theorem post_untouched_hyp (bs : List MemberBalance) :
    ∀ e ∈ (walk (sortByNbDesc (collectCreditorsAux 0 bs))
             (sortByNbDesc (collectDebtorsAux 0 bs))).2,
      ∀ j, e.idx = 0 + j → ∀ hj : j < bs.length, epsQ < (bs.get ⟨j, hj⟩).netBalance := by
  intro e he j hjeq hj
  have hidx : e.idx ∈ ((walk (sortByNbDesc (collectCreditorsAux 0 bs))
      (sortByNbDesc (collectDebtorsAux 0 bs))).2).map WEntry.idx :=
    List.mem_map_of_mem WEntry.idx he
  rw [walk_fin_idx] at hidx
  have hcc : e.idx ∈ (collectCreditorsAux 0 bs).map WEntry.idx := by
    rcases List.mem_map.mp hidx with ⟨y, hy, hyidx⟩
    rw [sort_mem] at hy
    exact hyidx ▸ List.mem_map_of_mem WEntry.idx hy
  obtain ⟨j', hj', hk, hnb⟩ := collect_cred_idx bs 0 e.idx hcc
  have hjj : j = j' := by omega
  subst hjj
  exact hnb

/-- C1 (amended): `simplify` does not leave its input records unchanged.
What does hold: every field other than `netBalance` of every record is
preserved, and every record that is not a creditor (netBalance ≤ 0.01) is
fully untouched — but creditor records, pushed into the working array by
reference, get their `netBalance` overwritten in place with the remainder
left after the greedy matching. -/
theorem c1_mutation_frame (bs : List MemberBalance) :
    (generateSimplifiedDebtsPost bs).map stripNb = bs.map stripNb ∧
    ∀ p ∈ (generateSimplifiedDebtsPost bs).zip bs, ¬ (epsQ < p.2.netBalance) → p.1 = p.2 := by
  constructor
  · simp only [generateSimplifiedDebtsPost]
    exact applyFinals_strip _ bs 0
  · simp only [generateSimplifiedDebtsPost]
    exact applyFinals_untouched _ bs 0 (post_untouched_hyp bs)

/-- C1 counterexample: on balances A:+50, B:-50 the call leaves A's record
with `netBalance = 0` (its mutated remainder), so the input records are NOT
all unchanged. -/
theorem c1_counterexample :
    generateSimplifiedDebtsPost c1bs
      = [⟨"A", "Alice", "a", 0, 0, 0⟩, ⟨"B", "Bob", "b", 0, 0, -50⟩] ∧
    generateSimplifiedDebtsPost c1bs ≠ c1bs := by
  have heval : generateSimplifiedDebtsPost c1bs
      = [⟨"A", "Alice", "a", 0, 0, 0⟩, ⟨"B", "Bob", "b", 0, 0, -50⟩] := by
    norm_num [generateSimplifiedDebtsPost, collectCreditorsAux, collectDebtorsAux, sortByNbDesc,
      insertByNb, walk, feed, applyFinalsAux, epsQ, min_def, c1bs, List.find?]
  refine ⟨heval, ?_⟩
  rw [heval]
  simp [c1bs]

/-- C1 witness: the amended theorem at A:+50, B:-50 — the debtor record B is
untouched. -/
theorem c1_mutation_frame_witness :
    ((⟨"B", "Bob", "b", 0, 0, -50⟩ : MemberBalance),
     (⟨"B", "Bob", "b", 0, 0, -50⟩ : MemberBalance)).1
      = ((⟨"B", "Bob", "b", 0, 0, -50⟩ : MemberBalance),
         (⟨"B", "Bob", "b", 0, 0, -50⟩ : MemberBalance)).2 :=
  (c1_mutation_frame c1bsW).2
    ((⟨"B", "Bob", "b", 0, 0, -50⟩ : MemberBalance),
     (⟨"B", "Bob", "b", 0, 0, -50⟩ : MemberBalance))
    (by
      rw [show generateSimplifiedDebtsPost c1bsW
          = [⟨"A", "Alice", "a", 0, 0, 0⟩, ⟨"B", "Bob", "b", 0, 0, -50⟩] from by
        norm_num [generateSimplifiedDebtsPost, collectCreditorsAux, collectDebtorsAux,
          sortByNbDesc, insertByNb, walk, feed, applyFinalsAux, epsQ, min_def, c1bsW, List.find?]]
      simp [c1bsW])
    (by norm_num [epsQ])

-- ## Claim C10

/-- C10: with no explicit split list, `addExpense` builds an equal split of
rounded shares and then applies its own 0.01 split-sum check to them; at
amount 100.00 with 7 members the rounded shares (7 × 14.29) sum to 100.03,
and the ingestion path rejects its own computed split. -/
theorem c10_equal_split_self_reject :
    ((equalSplitBetween 100 c10members).map Split.amount).sum = 10003/100 ∧
    addExpenseEqualSplit 100 c10members
      = Except.error "Split amounts do not add up to total amount" := by
  constructor
  · norm_num [equalSplitBetween, round2, c10members, Int.floor_eq_iff]
  · norm_num [addExpenseEqualSplit, equalSplitBetween, round2, c10members, Int.floor_eq_iff]
    intro habs
    rw [abs_of_nonneg (by norm_num)] at habs
    norm_num at habs
